import Mathlib

/-!
Shallow embedding of `cc.py` (class `ChessCrypt`): a chess-walk S-box
generator.  The table is an `N × N` grid of integers, three piece cursors
walk over it, and each simulated move swaps two table cells.  Python
integer semantics are modelled explicitly: `%` on a positive modulus is
`Int.emod`, `//` is `Int.fdiv` (floor division), and list indexing admits
negative indices that count from the end.
-/

namespace ChessCrypt

/-- Cyclic wrap of a (possibly negative) integer coordinate onto the board
of side `n`, as Python's `v % n` computes it for `n > 0` (`Int.emod` is
nonnegative there). -/
def wrap (v : Int) (n : Nat) : Nat := (v % (n : Int)).toNat

/-- State of a `ChessCrypt` object: the S-box as a list of rows, plus the
three piece cursors (`__init__`, lines 5-18 of `cc.py`). -/
structure CCState where
  box_size : Nat
  sbox : List (List Nat)
  king_pos : Nat × Nat
  knight_pos : Nat × Nat
  bishop_pos : Nat × Nat
deriving DecidableEq, Repr

/-- `__init__`: `np.arange(n*n).reshape(n, n)` puts `r * n + c` in cell
`(r, c)`; king at `(0,0)`, knight at `(n//2, n//2)`, bishop at
`(n-1, n-1)`. -/
def init (box_size : Nat) : CCState :=
  { box_size := box_size
    sbox := (List.range box_size).map
      (fun r => (List.range box_size).map (fun c => r * box_size + c))
    king_pos := (0, 0)
    knight_pos := (box_size / 2, box_size / 2)
    bishop_pos := (box_size - 1, box_size - 1) }

/-- `_get_knight_moves`: the eight (±2,±1)/(±1,±2) offsets in source
order, each coordinate wrapped. -/
def get_knight_moves (n : Nat) (pos : Nat × Nat) : List (Nat × Nat) :=
  [ (wrap ((pos.1 : Int) + 2) n, wrap ((pos.2 : Int) + 1) n),
    (wrap ((pos.1 : Int) + 2) n, wrap ((pos.2 : Int) - 1) n),
    (wrap ((pos.1 : Int) - 2) n, wrap ((pos.2 : Int) + 1) n),
    (wrap ((pos.1 : Int) - 2) n, wrap ((pos.2 : Int) - 1) n),
    (wrap ((pos.1 : Int) + 1) n, wrap ((pos.2 : Int) + 2) n),
    (wrap ((pos.1 : Int) + 1) n, wrap ((pos.2 : Int) - 2) n),
    (wrap ((pos.1 : Int) - 1) n, wrap ((pos.2 : Int) + 2) n),
    (wrap ((pos.1 : Int) - 1) n, wrap ((pos.2 : Int) - 2) n) ]

/-- `_get_king_moves`: loop `dx` then `dy` over `[-1, 0, 1]`, skip
`(0, 0)`, append the wrapped destination. -/
def get_king_moves (n : Nat) (pos : Nat × Nat) : List (Nat × Nat) :=
  ([-1, 0, 1] : List Int).flatMap (fun dx =>
    ([-1, 0, 1] : List Int).flatMap (fun dy =>
      if dx = 0 ∧ dy = 0 then []
      else [(wrap ((pos.1 : Int) + dx) n, wrap ((pos.2 : Int) + dy) n)]))

/-- Inner loop of `_get_bishop_moves`: take `k` consecutive diagonal steps
in direction `d`, each step wrapping the previous wrapped point (the
source mutates `curr_x, curr_y` cumulatively), appending every step. -/
def bishopSteps (n : Nat) (d : Int × Int) : Nat × Nat → Nat → List (Nat × Nat)
  | _, 0 => []
  | p, Nat.succ k =>
    let q := (wrap ((p.1 : Int) + d.1) n, wrap ((p.2 : Int) + d.2) n)
    q :: bishopSteps n d q k

/-- `_get_bishop_moves`: for each diagonal direction in source order, walk
`box_size` cumulative wrapped steps. -/
def get_bishop_moves (n : Nat) (pos : Nat × Nat) : List (Nat × Nat) :=
  ([((1 : Int), (1 : Int)), (1, -1), (-1, 1), (-1, -1)]).flatMap
    (fun d => bishopSteps n d pos n)

/-- Read the table cell at `p` (out-of-range reads return defaults; the
program only reads in-range cells). -/
def readCell (sbox : List (List Nat)) (p : Nat × Nat) : Nat :=
  (sbox.getD p.1 []).getD p.2 0

/-- Write value `v` into the table cell at `p`. -/
def setCell (sbox : List (List Nat)) (p : Nat × Nat) (v : Nat) : List (List Nat) :=
  sbox.set p.1 ((sbox.getD p.1 []).set p.2 v)

/-- `_swap_positions`: Python's simultaneous assignment evaluates both
right-hand sides first, then assigns `pos1` and `pos2` in order. -/
def swapPositions (sbox : List (List Nat)) (pos1 pos2 : Nat × Nat) : List (List Nat) :=
  let v1 := readCell sbox pos1
  let v2 := readCell sbox pos2
  setCell (setCell sbox pos1 v2) pos2 v1

/-- `moves[np.random.randint(len(moves))]`: the random source is modelled
as an arbitrary drawn number `r`, reduced into `[0, len)` as the uniform
draw guarantees. -/
def chooseMove (moves : List (Nat × Nat)) (r : Nat) : Nat × Nat :=
  moves.getD (r % moves.length) (0, 0)

/-- One iteration of the `generate_sbox` loop: knight, then king, then
bishop; each piece draws a destination, swaps its cell with the
destination's cell, and moves its cursor there. -/
def stepIteration (st : CCState) (rk rg rb : Nat) : CCState :=
  let knight_moves := get_knight_moves st.box_size st.knight_pos
  let new_knight := chooseMove knight_moves rk
  let st1 : CCState := { st with
    sbox := swapPositions st.sbox st.knight_pos new_knight
    knight_pos := new_knight }
  let king_moves := get_king_moves st1.box_size st1.king_pos
  let new_king := chooseMove king_moves rg
  let st2 : CCState := { st1 with
    sbox := swapPositions st1.sbox st1.king_pos new_king
    king_pos := new_king }
  let bishop_moves := get_bishop_moves st2.box_size st2.bishop_pos
  let new_bishop := chooseMove bishop_moves rb
  { st2 with
    sbox := swapPositions st2.sbox st2.bishop_pos new_bishop
    bishop_pos := new_bishop }

/-- Iterate `stepIteration` `k` times, consuming three draws of the random
stream per iteration starting at counter `c`. -/
def runIters (rand : Nat → Nat) : Nat → Nat → CCState → CCState
  | 0, _, st => st
  | Nat.succ k, c, st =>
    runIters rand k (c + 3) (stepIteration st (rand c) (rand (c + 1)) (rand (c + 2)))

/-- `generate_sbox(iterations)`: Python's `range(iterations)` is empty for
a negative argument, which `Int.toNat` models exactly. -/
def generate_sbox (st : CCState) (iterations : Int) (rand : Nat → Nat) : CCState :=
  runIters rand iterations.toNat 0 st

/-- Python list indexing: `0 ≤ i < len` reads directly, `-len ≤ i < 0`
reads from the end, anything else raises `IndexError`. -/
def pyIdx {α : Type} (l : List α) (i : Int) (d : α) : Except Unit α :=
  if 0 ≤ i ∧ i < (l.length : Int) then Except.ok (l.getD i.toNat d)
  else if -(l.length : Int) ≤ i ∧ i < 0 then Except.ok (l.getD (i + l.length).toNat d)
  else Except.error ()

/-- `substitute(input_byte)`: `row = input_byte // box_size` (floor
division), `col = input_byte % box_size`, then `sbox[row][col]` with
Python indexing semantics. -/
def substitute (st : CCState) (input_byte : Int) : Except Unit Nat :=
  let row := input_byte.fdiv st.box_size
  let col := input_byte % (st.box_size : Int)
  match pyIdx st.sbox row [] with
  | Except.ok theRow => pyIdx theRow col 0
  | Except.error e => Except.error e

/-- Modelled from the spec (§4.2 Bishop, design note on the naive
reimplementation): compute each diagonal step independently from the
starting position, step `k` being `(start + k·direction) mod side_length`
for `k = 1, …, side_length`, in the same direction order. -/
def naive_bishop_moves (n : Nat) (pos : Nat × Nat) : List (Nat × Nat) :=
  ([((1 : Int), (1 : Int)), (1, -1), (-1, 1), (-1, -1)]).flatMap (fun d =>
    (List.range n).map (fun (k : Nat) =>
      (wrap ((pos.1 : Int) + ((k : Int) + 1) * d.1) n,
       wrap ((pos.2 : Int) + ((k : Int) + 1) * d.2) n)))

/-- Shape invariant of the table: `n` rows, each of length `n`. -/
def Shape (n : Nat) (sbox : List (List Nat)) : Prop :=
  sbox.length = n ∧ ∀ row ∈ sbox, row.length = n

instance (n : Nat) (sbox : List (List Nat)) : Decidable (Shape n sbox) := by
  unfold Shape
  infer_instance

/-- A coordinate pair lies on the board. -/
def InRange (n : Nat) (p : Nat × Nat) : Prop :=
  p.1 < n ∧ p.2 < n

instance (n : Nat) (p : Nat × Nat) : Decidable (InRange n p) := by
  unfold InRange
  infer_instance

end ChessCrypt

namespace ChessCrypt

/-! ### List helper lemmas -/

theorem set_getD_self {α : Type} : ∀ (l : List α) (i : Nat) (d : α), l.set i (l.getD i d) = l
  | [], _, _ => by simp
  | _ :: _, 0, _ => by simp
  | a :: l, i + 1, d => by
    simpa using set_getD_self l i d

theorem getD_cons_set_perm {α : Type} :
    ∀ (xs : List α) (m : Nat) (x d : α), m < xs.length →
      List.Perm (xs.getD m d :: xs.set m x) (x :: xs)
  | [], _, _, _, h => absurd h (by simp)
  | y :: ys, 0, x, _, _ => by
    simpa using List.Perm.swap x y ys
  | y :: ys, m + 1, x, d, h => by
    simp only [List.getD_cons_succ, List.set_cons_succ]
    have ih := getD_cons_set_perm ys m x d (by simpa using h)
    exact (List.Perm.swap y (ys.getD m d) (ys.set m x)).trans
      ((ih.cons y).trans (List.Perm.swap x y ys))

theorem set_set_perm_getD {α : Type} :
    ∀ (l : List α) (i j : Nat) (d : α), i < l.length → j < l.length →
      List.Perm ((l.set i (l.getD j d)).set j (l.getD i d)) l
  | [], _, _, _, h, _ => absurd h (by simp)
  | _ :: _, 0, 0, _, _, _ => by simp
  | a :: t, 0, m + 1, d, _, hj => by
    simp only [List.getD_cons_zero, List.getD_cons_succ, List.set_cons_zero,
      List.set_cons_succ]
    exact getD_cons_set_perm t m a d (by simpa using hj)
  | a :: t, k + 1, 0, d, hi, _ => by
    simp only [List.getD_cons_zero, List.getD_cons_succ, List.set_cons_zero,
      List.set_cons_succ]
    exact getD_cons_set_perm t k a d (by simpa using hi)
  | a :: t, k + 1, m + 1, d, hi, hj => by
    simp only [List.getD_cons_succ, List.set_cons_succ]
    exact (set_set_perm_getD t k m d (by simpa using hi) (by simpa using hj)).cons a

/-! ### Wrap lemmas -/

theorem wrap_lt {n : Nat} (hn : 0 < n) (v : Int) : wrap v n < n := by
  unfold wrap
  have h1 : 0 ≤ v % (n : Int) := Int.emod_nonneg v (by exact_mod_cast hn.ne')
  have h2 : v % (n : Int) < n := Int.emod_lt_of_pos v (by exact_mod_cast hn)
  omega

theorem intCast_wrap {n : Nat} (hn : 0 < n) (v : Int) : ((wrap v n : Nat) : Int) = v % n := by
  unfold wrap
  rw [Int.toNat_of_nonneg (Int.emod_nonneg v (by exact_mod_cast hn.ne'))]

theorem length_bishopSteps (n : Nat) (d : Int × Int) :
    ∀ (p : Nat × Nat) (k : Nat), (bishopSteps n d p k).length = k := by
  intro p k
  induction k generalizing p with
  | zero => rfl
  | succ k ih => simp [bishopSteps, ih]

theorem length_get_bishop_moves (n : Nat) (pos : Nat × Nat) :
    (get_bishop_moves n pos).length = 4 * n := by
  simp [get_bishop_moves, length_bishopSteps]
  omega

/-- Claim C6: from every position the knight move generator returns exactly
8 moves, the king move generator exactly 8 moves, and the bishop move
generator exactly `4 * side_length` moves (duplicates kept). -/
theorem C6_move_set_lengths (n : Nat) (pos : Nat × Nat) :
    (get_knight_moves n pos).length = 8 ∧
    (get_king_moves n pos).length = 8 ∧
    (get_bishop_moves n pos).length = 4 * n :=
  ⟨rfl, rfl, length_get_bishop_moves n pos⟩

/-- Claim C5: at construction cell `(r, c)` holds `r * side_length + c`,
and running the walk engine for 0 iterations leaves the state (hence the
table) exactly at this row-major identity. -/
theorem C5_initial_identity (n r c : Nat) (rand : Nat → Nat) (hr : r < n) (hc : c < n) :
    readCell (init n).sbox (r, c) = r * n + c ∧
    generate_sbox (init n) 0 rand = init n := by
  constructor
  · have h1 : (init n).sbox.getD r [] = (List.range n).map (fun c => r * n + c) := by
      unfold init
      simp only
      rw [List.getD_eq_getElem _ _ (by simpa using hr)]
      simp
    unfold readCell
    simp only [h1]
    rw [List.getD_eq_getElem _ _ (by simpa using hc)]
    simp
  · rfl

/-- Witness for C5 at `n = 3`, `(r, c) = (1, 2)`. -/
theorem C5_initial_identity_witness :
    1 < 3 ∧ 2 < 3 ∧
      (readCell (init 3).sbox (1, 2) = 1 * 3 + 2 ∧
        generate_sbox (init 3) 0 (fun k => k) = init 3) :=
  ⟨by decide, by decide, C5_initial_identity 3 1 2 (fun k => k) (by decide) (by decide)⟩

end ChessCrypt

namespace ChessCrypt

/-! ### Table shape and cell lemmas -/

theorem row_length {n : Nat} {sbox : List (List Nat)} (hs : Shape n sbox) {i : Nat}
    (hi : i < n) : (sbox.getD i []).length = n := by
  obtain ⟨hlen, hrows⟩ := hs
  rw [List.getD_eq_getElem _ _ (by omega)]
  exact hrows _ (List.getElem_mem _)

theorem shape_setCell {n : Nat} {sbox : List (List Nat)} (hs : Shape n sbox)
    {p : Nat × Nat} (hp : p.1 < n) (v : Nat) : Shape n (setCell sbox p v) := by
  obtain ⟨hlen, hrows⟩ := hs
  refine ⟨by simpa [setCell] using hlen, ?_⟩
  intro row hrow
  rcases List.mem_or_eq_of_mem_set hrow with h | h
  · exact hrows row h
  · subst h
    simpa using row_length ⟨hlen, hrows⟩ hp

theorem getD_set_self {α : Type} (l : List α) (i : Nat) (v d : α) (h : i < l.length) :
    (l.set i v).getD i d = v := by
  rw [List.getD_eq_getElem _ _ (by simpa using h)]
  simp

theorem getD_set_ne {α : Type} (l : List α) {i j : Nat} (hne : i ≠ j) (v d : α) :
    (l.set i v).getD j d = l.getD j d := by
  rw [List.getD_eq_getElem?_getD, List.getD_eq_getElem?_getD, List.getElem?_set_ne hne]

theorem readCell_setCell_self {sbox : List (List Nat)} {p : Nat × Nat}
    (h1 : p.1 < sbox.length) (h2 : p.2 < (sbox.getD p.1 []).length) (v : Nat) :
    readCell (setCell sbox p v) p = v := by
  unfold readCell setCell
  rw [getD_set_self _ _ _ _ h1, getD_set_self _ _ _ _ h2]

theorem readCell_setCell_ne {sbox : List (List Nat)} {p q : Nat × Nat} (hne : q ≠ p)
    (v : Nat) : readCell (setCell sbox p v) q = readCell sbox q := by
  unfold readCell setCell
  by_cases hfst : p.1 = q.1
  · have hsnd : p.2 ≠ q.2 := by
      intro hsnd
      exact hne (Prod.ext hfst.symm hsnd.symm)
    by_cases hlen : p.1 < sbox.length
    · rw [← hfst, getD_set_self _ _ _ _ hlen, getD_set_ne _ hsnd]
    · rw [List.set_eq_of_length_le (le_of_not_lt hlen)]
  · rw [getD_set_ne _ hfst]

theorem swap_self (sbox : List (List Nat)) (p : Nat × Nat) :
    swapPositions sbox p p = sbox := by
  by_cases h1 : p.1 < sbox.length
  · have hget : (sbox.set p.1 ((sbox.getD p.1 []).set p.2 (readCell sbox p))).getD p.1 []
        = (sbox.getD p.1 []).set p.2 (readCell sbox p) :=
      getD_set_self _ _ _ _ h1
    simp only [swapPositions, setCell]
    rw [hget, List.set_set, List.set_set]
    show sbox.set p.1 ((sbox.getD p.1 []).set p.2 ((sbox.getD p.1 []).getD p.2 0)) = sbox
    rw [set_getD_self, set_getD_self]
  · have hle := le_of_not_lt h1
    simp only [swapPositions, setCell]
    rw [List.set_eq_of_length_le hle, List.set_eq_of_length_le hle]

theorem shape_swap {n : Nat} {sbox : List (List Nat)} (hs : Shape n sbox)
    {p1 p2 : Nat × Nat} (h1 : p1.1 < n) (h2 : p2.1 < n) :
    Shape n (swapPositions sbox p1 p2) :=
  shape_setCell (shape_setCell hs h1 _) h2 _

/-! ### Flatten lemmas -/

theorem flatten_length {n : Nat} {sbox : List (List Nat)} (hs : Shape n sbox) :
    sbox.flatten.length = n * n := by
  obtain ⟨hlen, hrows⟩ := hs
  rw [List.length_flatten]
  have hmap : sbox.map List.length = List.replicate sbox.length n := by
    rw [show sbox.length = (sbox.map List.length).length by simp]
    apply List.eq_replicate_of_mem
    intro b hb
    obtain ⟨row, hrow, rfl⟩ := List.mem_map.mp hb
    exact hrows row hrow
  rw [hmap, hlen, List.sum_replicate, smul_eq_mul]

theorem idx_lt {a b n : Nat} (ha : a < n) (hb : b < n) : a * n + b < n * n := by
  calc a * n + b < a * n + n := by omega
    _ = (a + 1) * n := by rw [Nat.succ_mul]
    _ ≤ n * n := Nat.mul_le_mul_right n (by omega)

theorem readCell_eq_flatten_getD {n : Nat} :
    ∀ (sbox : List (List Nat)) (r c : Nat), (∀ row ∈ sbox, row.length = n) →
      r < sbox.length → c < n →
      readCell sbox (r, c) = sbox.flatten.getD (r * n + c) 0 := by
  intro sbox
  induction sbox with
  | nil =>
    intro r c _ hr _
    simp at hr
  | cons row rest ih =>
    intro r c hrows hr hc
    have hrowlen : row.length = n := hrows row (by simp)
    cases r with
    | zero =>
      simp only [readCell, List.getD_cons_zero, List.flatten_cons, Nat.zero_mul,
        Nat.zero_add]
      rw [List.getD_eq_getElem?_getD, List.getD_eq_getElem?_getD,
        List.getElem?_append_left (by omega)]
    | succ r =>
      have hlhs : readCell (row :: rest) (r + 1, c) = readCell rest (r, c) := by
        simp [readCell]
      rw [hlhs, ih r c (fun w hw => hrows w (by simp [hw])) (by simpa using hr) hc,
        List.flatten_cons, List.getD_eq_getElem?_getD, List.getD_eq_getElem?_getD,
        Nat.succ_mul, Nat.add_right_comm (r * n) n c,
        List.getElem?_append_right (by rw [hrowlen]; exact Nat.le_add_left n _),
        hrowlen, Nat.add_sub_cancel]

theorem flatten_setCell {n : Nat} :
    ∀ (sbox : List (List Nat)) (r c v : Nat), (∀ row ∈ sbox, row.length = n) →
      r < sbox.length → c < n →
      (setCell sbox (r, c) v).flatten = sbox.flatten.set (r * n + c) v := by
  intro sbox
  induction sbox with
  | nil =>
    intro r c v _ hr _
    simp at hr
  | cons row rest ih =>
    intro r c v hrows hr hc
    have hrowlen : row.length = n := hrows row (by simp)
    cases r with
    | zero =>
      simp only [setCell, List.getD_cons_zero, List.set_cons_zero, List.flatten_cons,
        Nat.zero_mul, Nat.zero_add]
      rw [List.set_append, if_pos (by omega)]
    | succ r =>
      have hlhs : setCell (row :: rest) (r + 1, c) v = row :: setCell rest (r, c) v := by
        simp [setCell]
      rw [hlhs, List.flatten_cons, List.flatten_cons,
        ih r c v (fun w hw => hrows w (by simp [hw])) (by simpa using hr) hc,
        Nat.succ_mul, Nat.add_right_comm (r * n) n c, List.set_append,
        if_neg (by rw [hrowlen]; omega), hrowlen, Nat.add_sub_cancel]

theorem flatten_swap_perm {n : Nat} {sbox : List (List Nat)} (hs : Shape n sbox)
    {p1 p2 : Nat × Nat} (h1 : InRange n p1) (h2 : InRange n p2) :
    List.Perm (swapPositions sbox p1 p2).flatten sbox.flatten := by
  obtain ⟨h11, h12⟩ := h1
  obtain ⟨h21, h22⟩ := h2
  have hs1 : Shape n (setCell sbox p1 (readCell sbox p2)) := shape_setCell hs h11 _
  have e1 : setCell sbox p1 (readCell sbox p2)
      = setCell sbox (p1.1, p1.2) (readCell sbox p2) := by rw [Prod.mk.eta]
  have e2 : ∀ X v, setCell X p2 v = setCell X (p2.1, p2.2) v := by
    intro X v
    rw [Prod.mk.eta]
  simp only [swapPositions]
  rw [e2, flatten_setCell _ p2.1 p2.2 _ hs1.2 (by rw [hs1.1]; exact h21) h22,
    e1, flatten_setCell _ p1.1 p1.2 _ hs.2 (by rw [hs.1]; exact h11) h12]
  have hv1 : readCell sbox p1 = sbox.flatten.getD (p1.1 * n + p1.2) 0 := by
    rw [← Prod.mk.eta (p := p1)]
    exact readCell_eq_flatten_getD sbox p1.1 p1.2 hs.2 (by rw [hs.1]; exact h11) h12
  have hv2 : readCell sbox p2 = sbox.flatten.getD (p2.1 * n + p2.2) 0 := by
    rw [← Prod.mk.eta (p := p2)]
    exact readCell_eq_flatten_getD sbox p2.1 p2.2 hs.2 (by rw [hs.1]; exact h21) h22
  rw [hv1, hv2]
  exact set_set_perm_getD sbox.flatten _ _ 0
    (by rw [flatten_length hs]; exact idx_lt h11 h12)
    (by rw [flatten_length hs]; exact idx_lt h21 h22)

end ChessCrypt

namespace ChessCrypt

/-! ### Initial state facts -/

theorem shape_init (n : Nat) : Shape n (init n).sbox := by
  constructor
  · simp [init]
  · intro row hrow
    simp only [init, List.mem_map, List.mem_range] at hrow
    obtain ⟨r, _, rfl⟩ := hrow
    simp

theorem flatten_rows_aux (n : Nat) : ∀ (k a : Nat),
    ((List.range k).map (fun r => (List.range n).map (fun c => a + r * n + c))).flatten
      = List.range' a (k * n) := by
  intro k
  induction k with
  | zero =>
    intro a
    simp
  | succ k ih =>
    intro a
    rw [List.range_succ_eq_map]
    simp only [List.map_cons, List.flatten_cons, List.map_map]
    have hhead : (List.range n).map (fun c => a + 0 * n + c) = List.range' a n := by
      rw [List.range'_eq_map_range]
      apply List.map_congr_left
      intro c _
      omega
    have htail : (List.range k).map
        ((fun r => (List.range n).map (fun c => a + r * n + c)) ∘ Nat.succ)
        = (List.range k).map (fun r => (List.range n).map (fun c => (a + n) + r * n + c)) := by
      apply List.map_congr_left
      intro r _
      simp only [Function.comp]
      apply List.map_congr_left
      intro c _
      rw [Nat.succ_mul]
      omega
    rw [hhead, htail, ih (a + n)]
    have happ := List.range'_append a n (k * n) 1
    simp only [Nat.one_mul] at happ
    rw [happ]
    have : k * n + n = (k + 1) * n := (Nat.succ_mul k n).symm
    rw [this]

theorem flatten_init (n : Nat) : (init n).sbox.flatten = List.range (n * n) := by
  have haux := flatten_rows_aux n n 0
  simp only [Nat.zero_add] at haux
  unfold init
  simp only
  rw [haux, ← List.range_eq_range']

/-! ### Moves stay on the board -/

theorem inRange_wrap {n : Nat} (hn : 0 < n) (a b : Int) :
    InRange n (wrap a n, wrap b n) :=
  ⟨wrap_lt hn a, wrap_lt hn b⟩

theorem mem_knight_inRange {n : Nat} (hn : 0 < n) (pos : Nat × Nat) :
    ∀ m ∈ get_knight_moves n pos, InRange n m := by
  intro m hm
  simp only [get_knight_moves, List.mem_cons, List.not_mem_nil, or_false] at hm
  rcases hm with rfl | rfl | rfl | rfl | rfl | rfl | rfl | rfl <;>
    exact inRange_wrap hn _ _

theorem mem_king_inRange {n : Nat} (hn : 0 < n) (pos : Nat × Nat) :
    ∀ m ∈ get_king_moves n pos, InRange n m := by
  intro m hm
  unfold get_king_moves at hm
  rw [List.mem_flatMap] at hm
  obtain ⟨dx, _, hm⟩ := hm
  rw [List.mem_flatMap] at hm
  obtain ⟨dy, _, hm⟩ := hm
  split at hm
  · simp at hm
  · simp only [List.mem_singleton] at hm
    subst hm
    exact ⟨wrap_lt hn _, wrap_lt hn _⟩

theorem mem_bishopSteps_inRange {n : Nat} (hn : 0 < n) (d : Int × Int) :
    ∀ (k : Nat) (p : Nat × Nat), ∀ m ∈ bishopSteps n d p k, InRange n m := by
  intro k
  induction k with
  | zero =>
    intro p m hm
    simp [bishopSteps] at hm
  | succ k ih =>
    intro p m hm
    simp only [bishopSteps, List.mem_cons] at hm
    rcases hm with rfl | hm
    · exact ⟨wrap_lt hn _, wrap_lt hn _⟩
    · exact ih _ m hm

theorem mem_bishop_inRange {n : Nat} (hn : 0 < n) (pos : Nat × Nat) :
    ∀ m ∈ get_bishop_moves n pos, InRange n m := by
  intro m hm
  unfold get_bishop_moves at hm
  rw [List.mem_flatMap] at hm
  obtain ⟨d, _, hm⟩ := hm
  exact mem_bishopSteps_inRange hn d n pos m hm

theorem chooseMove_inRange {n : Nat} {moves : List (Nat × Nat)} (hne : moves ≠ [])
    (hall : ∀ m ∈ moves, InRange n m) (r : Nat) : InRange n (chooseMove moves r) := by
  unfold chooseMove
  have hlen : 0 < moves.length := List.length_pos.mpr hne
  have hlt : r % moves.length < moves.length := Nat.mod_lt r hlen
  rw [List.getD_eq_getElem _ _ hlt]
  exact hall _ (List.getElem_mem _)

/-! ### The walk-engine invariant -/

/-- Invariant carried through the walk: fixed box size, well-shaped table,
in-range cursors, and the flattened table a permutation of
`{0, …, n²−1}`. -/
def Inv (n : Nat) (st : CCState) : Prop :=
  st.box_size = n ∧ Shape n st.sbox ∧ InRange n st.knight_pos ∧
  InRange n st.king_pos ∧ InRange n st.bishop_pos ∧
  List.Perm st.sbox.flatten (List.range (n * n))

theorem inv_swap {n : Nat} {sbox : List (List Nat)} (hs : Shape n sbox)
    (hperm : List.Perm sbox.flatten (List.range (n * n))) {p1 p2 : Nat × Nat}
    (h1 : InRange n p1) (h2 : InRange n p2) :
    Shape n (swapPositions sbox p1 p2) ∧
      List.Perm (swapPositions sbox p1 p2).flatten (List.range (n * n)) :=
  ⟨shape_swap hs h1.1 h2.1, (flatten_swap_perm hs h1 h2).trans hperm⟩

theorem inv_stepIteration {n : Nat} (hn : 0 < n) {st : CCState} (h : Inv n st)
    (rk rg rb : Nat) : Inv n (stepIteration st rk rg rb) := by
  obtain ⟨hbox, hshape, hknight, hking, hbishop, hperm⟩ := h
  unfold stepIteration
  simp only [hbox]
  have hk_in : InRange n (chooseMove (get_knight_moves n st.knight_pos) rk) :=
    chooseMove_inRange (by simp [get_knight_moves]) (mem_knight_inRange hn _) rk
  have h1 := inv_swap hshape hperm hknight hk_in
  have hg_in : InRange n (chooseMove (get_king_moves n st.king_pos) rg) :=
    chooseMove_inRange (by simp [get_king_moves]) (mem_king_inRange hn _) rg
  have h2 := inv_swap h1.1 h1.2 hking hg_in
  have hb_ne : get_bishop_moves n st.bishop_pos ≠ [] := by
    intro hnil
    have := length_get_bishop_moves n st.bishop_pos
    rw [hnil] at this
    simp at this
    omega
  have hb_in : InRange n (chooseMove (get_bishop_moves n st.bishop_pos) rb) :=
    chooseMove_inRange hb_ne (mem_bishop_inRange hn _) rb
  have h3 := inv_swap h2.1 h2.2 hbishop hb_in
  exact ⟨rfl, h3.1, hk_in, hg_in, hb_in, h3.2⟩

theorem inv_runIters {n : Nat} (hn : 0 < n) (rand : Nat → Nat) :
    ∀ (k c : Nat) (st : CCState), Inv n st → Inv n (runIters rand k c st) := by
  intro k
  induction k with
  | zero =>
    intro c st h
    exact h
  | succ k ih =>
    intro c st h
    exact ih (c + 3) _ (inv_stepIteration hn h _ _ _)

theorem inv_init {n : Nat} (hn : 0 < n) : Inv n (init n) := by
  refine ⟨rfl, shape_init n, ?_, ?_, ?_, ?_⟩
  · show InRange n (n / 2, n / 2)
    exact ⟨Nat.div_lt_self hn (by omega), Nat.div_lt_self hn (by omega)⟩
  · show InRange n (0, 0)
    exact ⟨hn, hn⟩
  · show InRange n (n - 1, n - 1)
    exact ⟨by omega, by omega⟩
  · rw [flatten_init]

/-- Claim C1: for every `side_length ≥ 3` and every iteration count, the
flattened table after `generate_sbox` is a permutation of
`{0, …, side_length²−1}`, for any sequence of random draws; and every
mutation, being a pairwise swap of in-range cells, preserves the
permutation property at each point. -/
theorem C1_table_is_permutation (n : Nat) (iterations : Int) (rand : Nat → Nat)
    (hn : 3 ≤ n) :
    List.Perm (generate_sbox (init n) iterations rand).sbox.flatten
      (List.range (n * n)) ∧
    (∀ (sbox : List (List Nat)) (p1 p2 : Nat × Nat), Shape n sbox → InRange n p1 →
      InRange n p2 →
      List.Perm (swapPositions sbox p1 p2).flatten sbox.flatten) := by
  have hn0 : 0 < n := by omega
  constructor
  · exact (inv_runIters hn0 rand iterations.toNat 0 (init n) (inv_init hn0)).2.2.2.2.2
  · intro sbox p1 p2 hs h1 h2
    exact flatten_swap_perm hs h1 h2

/-- Witness for C1 at `side_length = 3` with 2 iterations. -/
theorem C1_table_is_permutation_witness :
    3 ≤ 3 ∧ List.Perm (generate_sbox (init 3) 2 (fun k => k)).sbox.flatten
      (List.range (3 * 3)) :=
  ⟨by decide, (C1_table_is_permutation 3 2 (fun k => k) (by decide)).1⟩

end ChessCrypt

namespace ChessCrypt

/-! ### Determinism (C2) -/

theorem runIters_congr (f g : Nat → Nat) : ∀ (k c : Nat) (st : CCState),
    (∀ j, c ≤ j → j < c + 3 * k → f j = g j) →
    runIters f k c st = runIters g k c st := by
  intro k
  induction k with
  | zero =>
    intro c st _
    rfl
  | succ k ih =>
    intro c st h
    unfold runIters
    rw [h c (Nat.le_refl c) (by omega), h (c + 1) (by omega) (by omega),
      h (c + 2) (by omega) (by omega)]
    exact ih (c + 3) _ (fun j hj1 hj2 => h j (by omega) (by omega))

/-- Claim C2: generation is deterministic given the random source — two
runs with the same side length, the same iteration count, and random
streams that agree on every drawn index produce identical states (three
draws are consumed per iteration). -/
theorem C2_deterministic (n : Nat) (iterations : Int) (f g : Nat → Nat)
    (h : ∀ j < 3 * iterations.toNat, f j = g j) :
    generate_sbox (init n) iterations f = generate_sbox (init n) iterations g := by
  unfold generate_sbox
  exact runIters_congr f g iterations.toNat 0 (init n) (fun j _ hj2 => h j (by omega))

/-- Witness for C2 at `side_length = 16`, 1000 iterations: two visibly
different streams that agree on the consumed window give identical
tables. -/
theorem C2_deterministic_witness :
    (∀ j < 3 * (1000 : Int).toNat, j % 7 = if j < 3000 then j % 7 else 0) ∧
    generate_sbox (init 16) 1000 (fun k => k % 7)
      = generate_sbox (init 16) 1000 (fun k => if k < 3000 then k % 7 else 0) :=
  ⟨fun j hj => (if_pos (by omega : j < 3000)).symm,
   C2_deterministic 16 1000 (fun k => k % 7) (fun k => if k < 3000 then k % 7 else 0)
     (fun j hj => (if_pos (by omega : j < 3000)).symm)⟩

/-! ### Negative iteration counts (C4) -/

/-- Counterexample to C4 as stated: `generate_sbox(-1)` does not fail at
all — Python's `range(-1)` is empty, so the call returns with the state
untouched instead of rejecting the argument. -/
theorem C4_counterexample_negative_accepted :
    generate_sbox (init 16) (-1) (fun k => k) = init 16 := rfl

/-- Claim C4 (amended): for every negative iteration count the walk engine
performs no iterations and returns the state unchanged — exactly as
`iterations = 0` would — raising no error; it has no failure mode. -/
theorem C4_negative_iterations_noop (n : Nat) (iterations : Int) (rand : Nat → Nat)
    (h : iterations < 0) :
    generate_sbox (init n) iterations rand = init n ∧
    generate_sbox (init n) iterations rand = generate_sbox (init n) 0 rand := by
  unfold generate_sbox
  rw [Int.toNat_of_nonpos h.le]
  exact ⟨rfl, rfl⟩

/-- Witness for C4 at `iterations = -5`. -/
theorem C4_negative_iterations_noop_witness :
    (-5 : Int) < 0 ∧
    (generate_sbox (init 4) (-5) (fun k => 2 * k + 1) = init 4 ∧
      generate_sbox (init 4) (-5) (fun k => 2 * k + 1)
        = generate_sbox (init 4) 0 (fun k => 2 * k + 1)) :=
  ⟨by decide, C4_negative_iterations_noop 4 (-5) (fun k => 2 * k + 1) (by decide)⟩

/-! ### Bishop cumulative walk vs. independent recomputation (C7) -/

theorem emod_add_absorb (a b m : Int) : (a % m + b) % m = (a + b) % m := by
  conv_rhs => rw [Int.add_emod]
  rw [Int.add_emod (a % m) b, Int.emod_emod_of_dvd _ dvd_rfl]

theorem wrap_congr {a b : Int} {n : Nat} (h : a % (n : Int) = b % (n : Int)) :
    wrap a n = wrap b n := by
  unfold wrap
  rw [h]

theorem bishopSteps_eq_naive {n : Nat} (hn : 0 < n) (d : Int × Int) :
    ∀ (k : Nat) (p : Nat × Nat), bishopSteps n d p k =
      (List.range k).map (fun (j : Nat) =>
        (wrap ((p.1 : Int) + ((j : Int) + 1) * d.1) n,
         wrap ((p.2 : Int) + ((j : Int) + 1) * d.2) n)) := by
  intro k
  induction k with
  | zero =>
    intro p
    rfl
  | succ k ih =>
    intro p
    rw [List.range_succ_eq_map, List.map_cons, List.map_map]
    simp only [bishopSteps]
    rw [ih (wrap ((p.1 : Int) + d.1) n, wrap ((p.2 : Int) + d.2) n)]
    congr 1
    · simp
    · apply List.map_congr_left
      intro j _
      simp only [Function.comp]
      have h1 : wrap (((wrap ((p.1 : Int) + d.1) n : Nat) : Int) + ((j : Int) + 1) * d.1) n
          = wrap ((p.1 : Int) + (((j + 1 : Nat) : Int) + 1) * d.1) n := by
        rw [intCast_wrap hn]
        apply wrap_congr
        rw [emod_add_absorb]
        congr 1
        push_cast
        ring
      have h2 : wrap (((wrap ((p.2 : Int) + d.2) n : Nat) : Int) + ((j : Int) + 1) * d.2) n
          = wrap ((p.2 : Int) + (((j + 1 : Nat) : Int) + 1) * d.2) n := by
        rw [intCast_wrap hn]
        apply wrap_congr
        rw [emod_add_absorb]
        congr 1
        push_cast
        ring
      rw [h1, h2]

/-- Counterexample to C7 as stated: on a board of side 3 starting at the
corner `(2, 2)` the very first step wraps (the head of the walk is
`(0, 0)`, not the raw `(3, 3)`), yet the cumulative walk and the
independent-recomputation walk are identical — they do not diverge. -/
theorem C7_counterexample_no_divergence :
    get_bishop_moves 3 (2, 2) = naive_bishop_moves 3 (2, 2) ∧
    (get_bishop_moves 3 (2, 2)).getD 0 (9, 9) = (0, 0) := by
  constructor
  · decide
  · decide

/-- Claim C7 (amended): the cumulative-wrap diagonal walk coincides with
the reimplementation that computes step `k` independently from the start
as `(start + k·direction) mod side_length`, for every positive side
length and every position — wrapping never makes them diverge, because
modular reduction commutes with addition. -/
theorem C7_bishop_cumulative_eq_naive (n : Nat) (pos : Nat × Nat) (hn : 1 ≤ n) :
    get_bishop_moves n pos = naive_bishop_moves n pos := by
  have hn0 : 0 < n := hn
  unfold get_bishop_moves naive_bishop_moves
  simp only [List.flatMap_cons, List.flatMap_nil, List.append_nil]
  rw [bishopSteps_eq_naive hn0 (1, 1) n pos, bishopSteps_eq_naive hn0 (1, -1) n pos,
    bishopSteps_eq_naive hn0 (-1, 1) n pos, bishopSteps_eq_naive hn0 (-1, -1) n pos]

/-- Witness for C7 at `side_length = 3`, position `(0, 0)`. -/
theorem C7_bishop_cumulative_eq_naive_witness :
    1 ≤ 3 ∧ get_bishop_moves 3 (0, 0) = naive_bishop_moves 3 (0, 0) :=
  ⟨by decide, C7_bishop_cumulative_eq_naive 3 (0, 0) (by decide)⟩

end ChessCrypt

namespace ChessCrypt

/-- Claim C8: every generator coordinate is produced by true mathematical
modulo — `wrap` agrees with `((v % n) + n) % n` for every integer `v`
including negatives — and consequently every coordinate returned by the
knight, king, and bishop generators lies in `[0, side_length)`. -/
theorem C8_true_modulo (n : Nat) (v : Int) (pos m : Nat × Nat) (hn : 1 ≤ n)
    (hm : m ∈ get_knight_moves n pos ∨ m ∈ get_king_moves n pos ∨
      m ∈ get_bishop_moves n pos) :
    ((wrap v n : Nat) : Int) = ((v % (n : Int)) + n) % n ∧ m.1 < n ∧ m.2 < n := by
  have hn0 : 0 < n := hn
  constructor
  · rw [intCast_wrap hn0]
    have h1 : ((v % (n : Int)) + (n : Int) * 1) % n = (v % n) % n :=
      Int.add_mul_emod_self_left (v % (n : Int)) (n : Int) 1
    rw [mul_one] at h1
    rw [h1, Int.emod_emod_of_dvd _ dvd_rfl]
  · rcases hm with h | h | h
    · exact mem_knight_inRange hn0 pos m h
    · exact mem_king_inRange hn0 pos m h
    · exact mem_bishop_inRange hn0 pos m h

/-- Witness for C8 at `side_length = 3`, `v = -5`, with the knight move
`(1, 0)` from `(2, 2)`. -/
theorem C8_true_modulo_witness :
    1 ≤ 3 ∧
    ((1, 0) ∈ get_knight_moves 3 (2, 2) ∨ (1, 0) ∈ get_king_moves 3 (2, 2) ∨
      (1, 0) ∈ get_bishop_moves 3 (2, 2)) ∧
    (((wrap (-5) 3 : Nat) : Int) = (((-5) % (3 : Int)) + 3) % 3 ∧
      (1, 0).1 < 3 ∧ (1, 0).2 < 3) :=
  ⟨by decide, Or.inl (by decide),
   C8_true_modulo 3 (-5) (2, 2) (1, 0) (by decide) (Or.inl (by decide))⟩

/-- Claim C9: swapping two in-range cells exchanges exactly those two
values, leaves every other cell unchanged, and the degenerate self-swap
leaves the table entirely unchanged. -/
theorem C9_swap_frame (n : Nat) (sbox : List (List Nat)) (p1 p2 q : Nat × Nat)
    (hs : Shape n sbox) (h1 : InRange n p1) (h2 : InRange n p2) (_hq : InRange n q) :
    readCell (swapPositions sbox p1 p2) p1 = readCell sbox p2 ∧
    readCell (swapPositions sbox p1 p2) p2 = readCell sbox p1 ∧
    (q ≠ p1 → q ≠ p2 → readCell (swapPositions sbox p1 p2) q = readCell sbox q) ∧
    swapPositions sbox p1 p1 = sbox := by
  have hr1 : p1.1 < sbox.length := by rw [hs.1]; exact h1.1
  have hc1 : p1.2 < (sbox.getD p1.1 []).length := by
    rw [row_length hs h1.1]; exact h1.2
  have hs1 : Shape n (setCell sbox p1 (readCell sbox p2)) := shape_setCell hs h1.1 _
  have hr2 : p2.1 < (setCell sbox p1 (readCell sbox p2)).length := by
    rw [hs1.1]; exact h2.1
  have hc2 : p2.2 < ((setCell sbox p1 (readCell sbox p2)).getD p2.1 []).length := by
    rw [row_length hs1 h2.1]; exact h2.2
  refine ⟨?_, ?_, ?_, swap_self sbox p1⟩
  · by_cases hpp : p1 = p2
    · subst hpp
      simp only [swapPositions]
      rw [readCell_setCell_self hr2 hc2]
    · simp only [swapPositions]
      rw [readCell_setCell_ne hpp, readCell_setCell_self hr1 hc1]
  · simp only [swapPositions]
    rw [readCell_setCell_self hr2 hc2]
  · intro hq1 hq2
    simp only [swapPositions]
    rw [readCell_setCell_ne hq2, readCell_setCell_ne hq1]

/-- Witness for C9 on the 2×2 identity table with `p1 = (0,0)`,
`p2 = (1,1)`, `q = (0,1)`. -/
theorem C9_swap_frame_witness :
    Shape 2 [[0, 1], [2, 3]] ∧ InRange 2 (0, 0) ∧ InRange 2 (1, 1) ∧
      InRange 2 (0, 1) ∧
    (readCell (swapPositions [[0, 1], [2, 3]] (0, 0) (1, 1)) (0, 0)
        = readCell [[0, 1], [2, 3]] (1, 1) ∧
      readCell (swapPositions [[0, 1], [2, 3]] (0, 0) (1, 1)) (1, 1)
        = readCell [[0, 1], [2, 3]] (0, 0) ∧
      ((0, 1) ≠ (0, 0) → (0, 1) ≠ (1, 1) →
        readCell (swapPositions [[0, 1], [2, 3]] (0, 0) (1, 1)) (0, 1)
          = readCell [[0, 1], [2, 3]] (0, 1)) ∧
      swapPositions [[0, 1], [2, 3]] (0, 0) (0, 0) = [[0, 1], [2, 3]]) :=
  ⟨by decide, by decide, by decide, by decide,
   C9_swap_frame 2 [[0, 1], [2, 3]] (0, 0) (1, 1) (0, 1)
     (by decide) (by decide) (by decide) (by decide)⟩

end ChessCrypt

namespace ChessCrypt

/-! ### Python indexing characterisation -/

theorem pyIdx_pos {α : Type} (l : List α) (i : Int) (d : α) (h0 : 0 ≤ i)
    (hlt : i < (l.length : Int)) : pyIdx l i d = Except.ok (l.getD i.toNat d) := by
  unfold pyIdx
  rw [if_pos ⟨h0, hlt⟩]

theorem pyIdx_neg {α : Type} (l : List α) (i : Int) (d : α)
    (hge : -(l.length : Int) ≤ i) (hlt : i < 0) :
    pyIdx l i d = Except.ok (l.getD (i + l.length).toNat d) := by
  unfold pyIdx
  rw [if_neg (by omega), if_pos ⟨hge, hlt⟩]

theorem pyIdx_err {α : Type} (l : List α) (i : Int) (d : α)
    (h : (l.length : Int) ≤ i ∨ i < -(l.length : Int)) :
    pyIdx l i d = Except.error () := by
  unfold pyIdx
  rw [if_neg (by omega), if_neg (by omega)]

/-! ### Substitution behaviour -/

theorem substitute_ok {n : Nat} {st : CCState} (hn : 1 ≤ n) (hbox : st.box_size = n)
    (hs : Shape n st.sbox) {input : Int} (h0 : 0 ≤ input)
    (hlt : input < (n : Int) * n) :
    substitute st input
      = Except.ok (readCell st.sbox ((input / (n : Int)).toNat, (input % (n : Int)).toNat)) := by
  have hN : (0 : Int) < (n : Int) := by exact_mod_cast hn
  have hrow0 : 0 ≤ input / (n : Int) := Int.ediv_nonneg h0 (le_of_lt hN)
  have hrowlt : input / (n : Int) < n := by
    rw [Int.ediv_lt_iff_lt_mul hN]
    exact hlt
  have hcol0 : 0 ≤ input % (n : Int) := Int.emod_nonneg input (ne_of_gt hN)
  have hcollt : input % (n : Int) < n := Int.emod_lt_of_pos input hN
  have hrowlen : (st.sbox.getD (input / (n : Int)).toNat []).length = n :=
    row_length hs (by omega)
  simp only [substitute, hbox]
  rw [Int.fdiv_eq_ediv _ (le_of_lt hN)]
  rw [pyIdx_pos st.sbox _ [] hrow0 (by rw [hs.1]; exact hrowlt)]
  exact pyIdx_pos _ _ 0 hcol0 (by rw [hrowlen]; exact hcollt)

theorem substitute_err {n : Nat} {st : CCState} (hn : 1 ≤ n) (hbox : st.box_size = n)
    (hs : Shape n st.sbox) {input : Int}
    (h : (n : Int) * n ≤ input ∨ input < -((n : Int) * n)) :
    substitute st input = Except.error () := by
  have hN : (0 : Int) < (n : Int) := by exact_mod_cast hn
  have hrow : (n : Int) ≤ input / n ∨ input / (n : Int) < -(n : Int) := by
    rcases h with h | h
    · left
      rw [Int.le_ediv_iff_mul_le hN]
      exact h
    · right
      rw [Int.ediv_lt_iff_lt_mul hN, neg_mul]
      exact h
  simp only [substitute, hbox]
  rw [Int.fdiv_eq_ediv _ (le_of_lt hN)]
  rw [pyIdx_err st.sbox _ [] (by rw [hs.1]; exact hrow)]

/-- Counterexample to C3 as stated: on the freshly built 16×16 table,
`substitute(-1)` is outside `[0, 256)` yet does not fail — Python's
negative indexing returns the last table entry, 255. -/
theorem C3_counterexample_negative_input_ok :
    substitute (init 16) (-1) = Except.ok 255 := by rfl

/-- Claim C3 (amended): `substitute` fails (with an index error) exactly
for `input ≥ side_length²` or `input < −side_length²`; in particular
`substitute(256)` on a 16×16 table fails; for `input` in
`[0, side_length²)` it returns `table.read(input // side_length,
input % side_length)` without error.  (Inputs in `[−side_length², 0)`
succeed via negative indexing; see C10.) -/
theorem C3_substitute_bounds (n : Nat) (st : CCState) (input : Int) (hn : 1 ≤ n)
    (hbox : st.box_size = n) (hs : Shape n st.sbox) :
    (0 ≤ input → input < (n : Int) * n →
      substitute st input
        = Except.ok (readCell st.sbox ((input / (n : Int)).toNat, (input % (n : Int)).toNat))) ∧
    ((n : Int) * n ≤ input ∨ input < -((n : Int) * n) →
      substitute st input = Except.error ()) :=
  ⟨fun h0 hlt => substitute_ok hn hbox hs h0 hlt,
   fun h => substitute_err hn hbox hs h⟩

/-- Witness for C3 at the spec's concrete case: `side_length = 16`,
`input = 256` fails. -/
theorem C3_substitute_bounds_witness :
    (1 ≤ 16 ∧ (init 16).box_size = 16 ∧ Shape 16 (init 16).sbox ∧
      ((16 : Int) * 16 ≤ 256 ∨ (256 : Int) < -((16 : Int) * 16))) ∧
    substitute (init 16) 256 = Except.error () :=
  ⟨⟨by decide, by decide, by decide, Or.inl (by decide)⟩,
   (C3_substitute_bounds 16 (init 16) 256 (by decide) (by decide) (by decide)).2
     (Or.inl (by decide))⟩

/-- Claim C10: for every `input` in `[−side_length², 0)`, `substitute`
returns a table value without error, and that value equals
`substitute(input + side_length²)` — negative inputs wrap to the end of
the table via floor division and negative indexing. -/
theorem C10_negative_wraparound (n : Nat) (st : CCState) (input : Int) (hn : 1 ≤ n)
    (hbox : st.box_size = n) (hs : Shape n st.sbox)
    (hlo : -((n : Int) * n) ≤ input) (hhi : input < 0) :
    substitute st input = substitute st (input + (n : Int) * n) ∧
    ∃ v, substitute st input = Except.ok v := by
  have hN : (0 : Int) < (n : Int) := by exact_mod_cast hn
  have hrow_lo : -(n : Int) ≤ input / n := by
    rw [Int.le_ediv_iff_mul_le hN, neg_mul]
    exact hlo
  have hrow_hi : input / (n : Int) < 0 := Int.ediv_neg' hhi hN
  have hcol0 : 0 ≤ input % (n : Int) := Int.emod_nonneg input (ne_of_gt hN)
  have hcollt : input % (n : Int) < n := Int.emod_lt_of_pos input hN
  have hrowlen : (st.sbox.getD (input / (n : Int) + n).toNat []).length = n :=
    row_length hs (by omega)
  have hcompute : substitute st input
      = Except.ok ((st.sbox.getD (input / (n : Int) + n).toNat []).getD
          (input % (n : Int)).toNat 0) := by
    simp only [substitute, hbox]
    rw [Int.fdiv_eq_ediv _ (le_of_lt hN)]
    rw [pyIdx_neg st.sbox _ [] (by rw [hs.1]; exact hrow_lo) hrow_hi]
    rw [hs.1]
    exact pyIdx_pos _ _ 0 hcol0 (by rw [hrowlen]; exact hcollt)
  have hcompute2 : substitute st (input + (n : Int) * n)
      = Except.ok ((st.sbox.getD (input / (n : Int) + n).toNat []).getD
          (input % (n : Int)).toNat 0) := by
    simp only [substitute, hbox]
    rw [Int.fdiv_eq_ediv _ (le_of_lt hN)]
    rw [Int.add_mul_ediv_right input (n : Int) (ne_of_gt hN)]
    rw [Int.add_mul_emod_self_left input (n : Int) (n : Int)]
    rw [pyIdx_pos st.sbox _ [] (by omega) (by rw [hs.1]; omega)]
    exact pyIdx_pos _ _ 0 hcol0 (by rw [hrowlen]; exact hcollt)
  exact ⟨hcompute.trans hcompute2.symm, ⟨_, hcompute⟩⟩

/-- Witness for C10 at `side_length = 16`, `input = -1` (wraps to entry
255 of the fresh table). -/
theorem C10_negative_wraparound_witness :
    (1 ≤ 16 ∧ (init 16).box_size = 16 ∧ Shape 16 (init 16).sbox ∧
      -((16 : Int) * 16) ≤ -1 ∧ (-1 : Int) < 0) ∧
    (substitute (init 16) (-1) = substitute (init 16) (-1 + (16 : Int) * 16) ∧
      ∃ v, substitute (init 16) (-1) = Except.ok v) :=
  ⟨⟨by decide, by decide, by decide, by decide, by decide⟩,
   C10_negative_wraparound 16 (init 16) (-1) (by decide) (by decide) (by decide)
     (by decide) (by decide)⟩

end ChessCrypt
